import Mathlib

/-!
Shallow embedding of the MiniPupper presenter core:
the fragment reassembler and multi-robot dispatch of `BluetoothService`
(src/presenter/scripts/main.js) and the `ExecutionController` run engine.
JS `Map`s are modelled as association lists with `Map.set`/`Map.delete`
semantics, JS arrays of chunk slots as `List (Option String)` (a hole or
`undefined` entry is `none`), and the decimal rendering a JS template
literal applies to a robot id as `natStr`.
-/

set_option maxRecDepth 4000

namespace MiniPupper

/-- Decimal digit character, as produced by JS number-to-string conversion. -/
def digitChar : Nat → Char
  | 0 => '0'
  | 1 => '1'
  | 2 => '2'
  | 3 => '3'
  | 4 => '4'
  | 5 => '5'
  | 6 => '6'
  | 7 => '7'
  | 8 => '8'
  | 9 => '9'
  | _ => '*'

/-- Fuel-bounded decimal rendering; `fuel > n` always suffices. -/
def natCharsAux : Nat → Nat → List Char
  | 0, _ => []
  | fuel + 1, n =>
    if n < 10 then [digitChar n]
    else natCharsAux fuel (n / 10) ++ [digitChar (n % 10)]

/-- Decimal rendering of a natural number as a character list (JS `${n}`). -/
def natChars (n : Nat) : List Char := natCharsAux (n + 1) n

/-- Decimal rendering of a natural number as a string (JS template literal). -/
def natStr (n : Nat) : String := String.mk (natChars n)

/-- The reassembly-buffer key: JS template literal `${robotId}_${id}`. -/
def chunkKey (robotId : Nat) (id : String) : String :=
  natStr robotId ++ "_" ++ id

/-- One reassembly buffer: value stored in `this.chunkedMessages`. -/
structure ChunkMsg where
  chunks : List (Option String)
  receivedCount : Nat
  total : Nat
deriving DecidableEq, Repr

/-- One inbound chunk envelope (`parsed.chunk` fields). `data = none` models
an absent field; the empty string is JS-falsy and also rejected. -/
structure Chunk where
  id : String
  index : Nat
  total : Nat
  data : Option String
deriving DecidableEq, Repr

/-- The `chunkedMessages` JS `Map`, insertion ordered. -/
abbrev BufMap := List (String × ChunkMsg)

/-- JS `Map.get`. -/
def lookupBuf : BufMap → String → Option ChunkMsg
  | [], _ => none
  | (k, v) :: rest, key => if k = key then some v else lookupBuf rest key

/-- JS `Map.set`: overwrite in place, else append. -/
def setBuf : BufMap → String → ChunkMsg → BufMap
  | [], key, v => [(key, v)]
  | (k, w) :: rest, key, v =>
      if k = key then (k, v) :: rest else (k, w) :: setBuf rest key v

/-- JS `Map.delete`. -/
def eraseBuf : BufMap → String → BufMap
  | [], _ => []
  | (k, w) :: rest, key =>
      if k = key then eraseBuf rest key else (k, w) :: eraseBuf rest key

/-- JS array read `a[i]` (`undefined` for a hole or out-of-range index). -/
def jsGet (l : List (Option String)) (i : Nat) : Option String :=
  l.getD i none

/-- JS array write `a[i] = v`, growing the array with holes if needed. -/
def jsSet (l : List (Option String)) (i : Nat) (v : String) : List (Option String) :=
  if i < l.length then l.set i (some v)
  else l ++ List.replicate (i - l.length) none ++ [some v]

/-- JS `array.join('')` over the slot array: holes render as `""`. -/
def joinChunks (l : List (Option String)) : String :=
  String.join (l.map (fun o => o.getD ""))

/-- `BluetoothService.handleChunkedMessage`: returns the updated
`chunkedMessages` map and the reconstructed complete message, if any. -/
def handleChunkedMessage (robotId : Nat) (c : Chunk) (m : BufMap) :
    BufMap × Option String :=
  match c.data with
  | none => (m, none)
  | some d =>
    if d = "" then (m, none)
    else
      let key := chunkKey robotId c.id
      let m1 := match lookupBuf m key with
        | some _ => m
        | none => setBuf m key ⟨List.replicate c.total none, 0, c.total⟩
      match lookupBuf m1 key with
      | none => (m1, none)
      | some md =>
        if (jsGet md.chunks c.index).isSome then
          (m1, none)
        else
          let md2 : ChunkMsg :=
            ⟨jsSet md.chunks c.index d, md.receivedCount + 1, md.total⟩
          if md2.receivedCount = md2.total then
            (eraseBuf m1 key, some (joinChunks md2.chunks))
          else
            (setBuf m1 key md2, none)

/-- Deliver a sequence of chunks to the reassembler, collecting every
message that completes. -/
def deliverAll (r : Nat) (cs : List Chunk) (m : BufMap) : BufMap × List String :=
  match cs with
  | [] => (m, [])
  | c :: rest =>
    let p := handleChunkedMessage r c m
    let q := deliverAll r rest p.1
    (q.1, p.2.toList ++ q.2)

/-- The robot registry `this.robots`: insertion-ordered (id, name) pairs. -/
abbrev RobotMap := List (Nat × String)

/-- JS `Map.get` on the robot registry. -/
def lookupRobot : RobotMap → Nat → Option String
  | [], _ => none
  | (k, v) :: rest, key => if k = key then some v else lookupRobot rest key

/-- JS `Map.delete` on the robot registry. -/
def eraseRobot : RobotMap → Nat → RobotMap
  | [], _ => []
  | (k, v) :: rest, key =>
      if k = key then eraseRobot rest key else (k, v) :: eraseRobot rest key

/-- The `BluetoothService` state touched by disconnection handling. -/
structure BTState where
  robots : RobotMap
  chunkedMessages : BufMap
deriving DecidableEq, Repr

/-- `BluetoothService.handleDisconnection`: removes the robot from the
registry if present.  It does not touch `chunkedMessages`. -/
def handleDisconnection (robotId : Nat) (s : BTState) : BTState :=
  match lookupRobot s.robots robotId with
  | some _ => { s with robots := eraseRobot s.robots robotId }
  | none => s

/-- One per-robot outcome entry pushed by `executeToolOnAll` / `sendToAll`. -/
structure SendResult where
  robotId : Nat
  robotName : String
  success : Bool
  error : Option String
deriving DecidableEq, Repr

/-- Result of the guarded `sendToRobot` attempt inside the fan-out loop:
the write oracle `w` gives `none` on success and the thrown error message
on failure, which the `try`/`catch` turns into a per-entry outcome. -/
def sendOutcome (w : Nat → Option String) (rid : Nat) (name : String) : SendResult :=
  match w rid with
  | none => ⟨rid, name, true, none⟩
  | some msg => ⟨rid, name, false, some msg⟩

/-- `BluetoothService.executeToolOnAll`: one entry per registry robot, in
registry order; a failing write is caught and recorded, never rethrown. -/
def executeToolOnAll (robots : RobotMap) (w : Nat → Option String)
    (_toolName : String) : List SendResult :=
  robots.map (fun r => sendOutcome w r.1 r.2)

/-- `BluetoothService.sendToAll`: same fan-out loop for a raw message. -/
def sendToAll (robots : RobotMap) (w : Nat → Option String)
    (_message : String) : List SendResult :=
  robots.map (fun r => sendOutcome w r.1 r.2)

/-- `ExecutionController.runMode`. -/
inductive RunMode
  | once
  | loop
deriving DecidableEq, Repr

/-- One instruction of an action (`tool` plus post-dispatch delay). -/
structure Instruction where
  tool : String
  delay : Nat
deriving DecidableEq, Repr

/-- A stored action: name and ordered instruction list. -/
structure Action where
  name : String
  instructions : List Instruction
deriving DecidableEq, Repr

/-- The mutable fields of `ExecutionController`. -/
structure ExecState where
  isRunning : Bool
  shouldStop : Bool
  currentAction : Option Action
  currentInstructionIndex : Nat
  loopCount : Nat
  runMode : RunMode
deriving DecidableEq, Repr

/-- External interventions that can land at an await point of a run:
nothing, a `requestStop` call, or a `forceStop` call. -/
inductive Ev
  | tick
  | reqStop
  | fStop
deriving DecidableEq, Repr

/-- Observable effects of a run: the Wake-Up broadcast attempt, the quit
broadcast attempt, an error notification, or one instruction dispatch with
its per-robot outcome list. -/
inductive Sig
  | startSig
  | stopSig
  | errSig (msg : String)
  | dispatch (tool : String) (results : List SendResult)
deriving DecidableEq, Repr

/-- `ExecutionController.requestStop`: sets the graceful flag only while a
run is active; never clears `isRunning`. -/
def requestStop (s : ExecState) : ExecState :=
  if s.isRunning then { s with shouldStop := true } else s

/-- `ExecutionController.forceStop`: clears `isRunning` immediately and
itself sends the quit broadcast. -/
def forceStop (s : ExecState) : ExecState × List Sig :=
  ({ s with shouldStop := true, isRunning := false }, [Sig.stopSig])

/-- Effect of one external intervention on the controller state. -/
def applyEv : Ev → ExecState → ExecState × List Sig
  | Ev.tick, s => (s, [])
  | Ev.reqStop, s => (requestStop s, [])
  | Ev.fStop, s => forceStop s

/-- Pop the next scheduled intervention; an exhausted schedule means the
environment stays quiet (`tick`). -/
def nextEv : List Ev → Ev × List Ev
  | [] => (Ev.tick, [])
  | e :: r => (e, r)

/-- The `for` loop inside `executeAction`: one intervention opportunity at
the await before each instruction, then the `!this.isRunning` check, then
the `executeToolOnAll` dispatch. -/
def runInstrs (robots : RobotMap) (w : Nat → Option String) :
    List Instruction → Nat → ExecState → List Ev → ExecState × List Ev × List Sig
  | [], _, s, evs => (s, evs, [])
  | ins :: rest, i, s, evs =>
    let e := nextEv evs
    let a := applyEv e.1 s
    if a.1.isRunning then
      let s2 := { a.1 with currentInstructionIndex := i }
      let res := executeToolOnAll robots w ins.tool
      let rec2 := runInstrs robots w rest (i + 1) s2 e.2
      (rec2.1, rec2.2.1, a.2 ++ Sig.dispatch ins.tool res :: rec2.2.2)
    else
      (a.1, e.2, a.2)

/-- The `do`/`while` body of `executeAction`: bumps `loopCount`, runs the
instruction list, takes one intervention opportunity at the loop-boundary
await, and repeats while `runMode = loop` and no stop was seen.  `fuel`
bounds the number of iterations modelled; `none` means the run was still
going when fuel ran out. -/
def execBody (robots : RobotMap) (w : Nat → Option String) (instrs : List Instruction) :
    Nat → ExecState → List Ev → Option (ExecState × List Ev × List Sig)
  | 0, _, _ => none
  | fuel + 1, s, evs =>
    let s0 := { s with loopCount := s.loopCount + 1 }
    let r1 := runInstrs robots w instrs 0 s0 evs
    let e := nextEv r1.2.1
    let a := applyEv e.1 r1.1
    if a.1.runMode = RunMode.loop ∧ a.1.shouldStop = false ∧ a.1.isRunning = true then
      match execBody robots w instrs fuel a.1 e.2 with
      | none => none
      | some (s3, evs3, tr3) => some (s3, evs3, r1.2.2 ++ a.2 ++ tr3)
    else
      some (a.1, e.2, r1.2.2 ++ a.2)

/-- `ExecutionController.executeAction`: returns `false` when no current
action is set, else marks the run active, drives the do/while loop, and
clears `isRunning` on completion (the catch path is unreachable because
dispatch failures are caught inside `executeToolOnAll`). -/
def executeAction (robots : RobotMap) (w : Nat → Option String) (fuel : Nat)
    (s : ExecState) (evs : List Ev) : Option (Bool × ExecState × List Ev × List Sig) :=
  match s.currentAction with
  | none => some (false, s, evs, [])
  | some act =>
    let s0 := { s with isRunning := true }
    match execBody robots w act.instructions fuel s0 evs with
    | none => none
    | some (s1, evs1, tr) => some (true, { s1 with isRunning := false }, evs1, tr)

/-- `ActionManager.getAction` over the stored actions, keyed by id. -/
def getAction : List (String × Action) → String → Option Action
  | [], _ => none
  | (k, v) :: rest, key => if k = key then some v else getAction rest key

/-- Trace bracket shared by `runOnce`/`runLoop`: the Wake-Up broadcast
attempt before `executeAction` and the quit broadcast attempt after it. -/
def finishRun :
    Option (Bool × ExecState × List Ev × List Sig) →
      Option (Bool × ExecState × List Sig)
  | none => none
  | some (b, s2, _, tr) => some (b, s2, Sig.startSig :: (tr ++ [Sig.stopSig]))

/-- `ExecutionController.runOnce`: guard phase (unknown action, already
running, nothing connected), then Wake-Up broadcast, `executeAction`, and
the quit broadcast. -/
def runOnce (robots : RobotMap) (w : Nat → Option String)
    (actions : List (String × Action)) (fuel : Nat) (actionId : String)
    (s : ExecState) (evs : List Ev) : Option (Bool × ExecState × List Sig) :=
  match getAction actions actionId with
  | none => some (false, s, [Sig.errSig "Action not found"])
  | some act =>
    if s.isRunning then
      some (false, s, [Sig.errSig "Another action is already running"])
    else if robots.length = 0 then
      some (false, s, [Sig.errSig "No robots connected"])
    else
      finishRun (executeAction robots w fuel
        { s with runMode := RunMode.once, currentAction := some act,
                 loopCount := 1, shouldStop := false } evs)

/-- `ExecutionController.runLoop`: same guards, `runMode = loop`,
`loopCount` reset to 0. -/
def runLoop (robots : RobotMap) (w : Nat → Option String)
    (actions : List (String × Action)) (fuel : Nat) (actionId : String)
    (s : ExecState) (evs : List Ev) : Option (Bool × ExecState × List Sig) :=
  match getAction actions actionId with
  | none => some (false, s, [Sig.errSig "Action not found"])
  | some act =>
    if s.isRunning then
      some (false, s, [Sig.errSig "Another action is already running"])
    else if robots.length = 0 then
      some (false, s, [Sig.errSig "No robots connected"])
    else
      finishRun (executeAction robots w fuel
        { s with runMode := RunMode.loop, currentAction := some act,
                 loopCount := 0, shouldStop := false } evs)

/-! ### Association-list map lemmas -/

theorem lookupBuf_setBuf_self (m : BufMap) (key : String) (v : ChunkMsg) :
    lookupBuf (setBuf m key v) key = some v := by
  induction m with
  | nil => simp [setBuf, lookupBuf]
  | cons hd tl ih =>
    by_cases h : hd.1 = key <;> simp [setBuf, lookupBuf, h, ih]

theorem lookupBuf_setBuf_ne (m : BufMap) (key k : String) (v : ChunkMsg)
    (h : k ≠ key) : lookupBuf (setBuf m key v) k = lookupBuf m k := by
  induction m with
  | nil => simp [setBuf, lookupBuf, Ne.symm h]
  | cons hd tl ih =>
    by_cases hh : hd.1 = key
    · simp [setBuf, lookupBuf, hh, Ne.symm h]
    · simp [setBuf, lookupBuf, hh, ih]

theorem lookupBuf_eraseBuf_ne (m : BufMap) (key k : String)
    (h : k ≠ key) : lookupBuf (eraseBuf m key) k = lookupBuf m k := by
  induction m with
  | nil => simp [eraseBuf]
  | cons hd tl ih =>
    by_cases hh : hd.1 = key
    · simp [eraseBuf, lookupBuf, hh, Ne.symm h, ih]
    · simp [eraseBuf, lookupBuf, hh, ih]

theorem eraseBuf_fresh (m : BufMap) (key : String)
    (h : lookupBuf m key = none) : eraseBuf m key = m := by
  induction m with
  | nil => rfl
  | cons hd tl ih =>
    by_cases hh : hd.1 = key
    · simp [lookupBuf, hh] at h
    · simp [lookupBuf, hh] at h
      simp [eraseBuf, hh, ih h]

theorem setBuf_setBuf (m : BufMap) (key : String) (v v2 : ChunkMsg) :
    setBuf (setBuf m key v) key v2 = setBuf m key v2 := by
  induction m with
  | nil => simp [setBuf]
  | cons hd tl ih =>
    by_cases hh : hd.1 = key <;> simp [setBuf, hh, ih]

theorem eraseBuf_setBuf_fresh (m : BufMap) (key : String) (v : ChunkMsg)
    (h : lookupBuf m key = none) : eraseBuf (setBuf m key v) key = m := by
  induction m with
  | nil => simp [setBuf, eraseBuf]
  | cons hd tl ih =>
    by_cases hh : hd.1 = key
    · simp [lookupBuf, hh] at h
    · simp [lookupBuf, hh] at h
      simp [setBuf, eraseBuf, hh, ih h]

/-! ### C2: disconnect handling and reassembly buffers -/

/-- A half-filled buffer for robot 1, message id "x". -/
def c2Buf : ChunkMsg := ⟨[some "a", none], 1, 2⟩

/-- Service state: robot 1 connected, one partial message in flight. -/
def c2BT : BTState := ⟨[(1, "R1")], [(chunkKey 1 "x", c2Buf)]⟩

/-- C2 counterexample: after `handleDisconnection 1`, the reassembly buffer
keyed by session 1 is still present — the claim that all buffers keyed by
the disconnected session are discarded is false on the code. -/
theorem disconnect_keeps_buffers_cx :
    lookupBuf (handleDisconnection 1 c2BT).chunkedMessages (chunkKey 1 "x") =
      some c2Buf := by rfl

/-- C2 (amended): `handleDisconnection` removes the session from the robot
registry but leaves the reassembly-buffer map exactly unchanged; buffers
keyed by the disconnected session persist. -/
theorem handleDisconnection_preserves_buffers (robotId : Nat) (s : BTState) :
    (handleDisconnection robotId s).chunkedMessages = s.chunkedMessages := by
  unfold handleDisconnection
  cases lookupRobot s.robots robotId <;> rfl

/-! ### C3: duplicate fragment delivery -/

/-- C3: delivering a fragment whose slot is already filled leaves the
whole reassembly map unchanged (so both the fill count and the stored slot
contents are unaltered) and emits nothing. -/
theorem duplicate_fragment_idempotent (r : Nat) (c : Chunk) (m : BufMap)
    (b : ChunkMsg)
    (hb : lookupBuf m (chunkKey r c.id) = some b)
    (hfilled : (jsGet b.chunks c.index).isSome = true) :
    handleChunkedMessage r c m = (m, none) := by
  unfold handleChunkedMessage
  cases hd : c.data with
  | none => rfl
  | some d =>
    by_cases he : d = ""
    · simp [he]
    · simp [he, hb, hfilled]

/-- Concrete state for the C3 witness. -/
def c3Map : BufMap := [(chunkKey 1 "x", ⟨[some "a", none], 1, 2⟩)]

/-- C3 witness: a duplicate of the already-stored fragment 0 is discarded. -/
theorem duplicate_fragment_idempotent_witness :
    handleChunkedMessage 1 ⟨"x", 0, 2, some "a"⟩ c3Map = (c3Map, none) :=
  duplicate_fragment_idempotent 1 ⟨"x", 0, 2, some "a"⟩ c3Map
    ⟨[some "a", none], 1, 2⟩ (by rfl) (by rfl)

/-! ### C6: fan-out cardinality -/

/-- C6: dispatching to all robots returns exactly one outcome entry per
registry robot, in registry order, each entry being that robot's own
success/failure outcome — for `executeToolOnAll` and `sendToAll` alike,
no matter which writes fail. -/
theorem fanout_cardinality (robots : RobotMap) (w : Nat → Option String)
    (tool msg : String) (i : Nat) :
    (executeToolOnAll robots w tool).length = robots.length ∧
    (sendToAll robots w msg).length = robots.length ∧
    (executeToolOnAll robots w tool)[i]? =
      (robots[i]?).map (fun r => sendOutcome w r.1 r.2) ∧
    (sendToAll robots w msg)[i]? =
      (robots[i]?).map (fun r => sendOutcome w r.1 r.2) := by
  refine ⟨?_, ?_, ?_, ?_⟩ <;>
    simp [executeToolOnAll, sendToAll]

/-! ### C8: single active run -/

/-- C8: while a run is active, any further start call (`runOnce` or
`runLoop`) returns `false`, surfaces only an error notification (no start
signal), and returns the controller state entirely unchanged. -/
theorem single_active_run_rejected (robots : RobotMap) (w : Nat → Option String)
    (actions : List (String × Action)) (fuel : Nat) (actionId : String)
    (s : ExecState) (evs : List Ev) (h : s.isRunning = true) :
    (∃ msg, runOnce robots w actions fuel actionId s evs =
      some (false, s, [Sig.errSig msg])) ∧
    (∃ msg, runLoop robots w actions fuel actionId s evs =
      some (false, s, [Sig.errSig msg])) := by
  unfold runOnce runLoop
  cases getAction actions actionId <;> simp [h]

/-- Controller state with an active run, for the C8 witness. -/
def c8State : ExecState := ⟨true, false, none, 0, 0, RunMode.once⟩

/-- C8 witness: a second start call against a running controller is
rejected with an error and no state change. -/
theorem single_active_run_rejected_witness :
    (∃ msg, runOnce [(1, "R1")] (fun _ => none) [] 3 "a" c8State [] =
      some (false, c8State, [Sig.errSig msg])) ∧
    (∃ msg, runLoop [(1, "R1")] (fun _ => none) [] 3 "a" c8State [] =
      some (false, c8State, [Sig.errSig msg])) :=
  single_active_run_rejected [(1, "R1")] (fun _ => none) [] 3 "a" c8State []
    (by rfl)

/-! ### Decimal rendering lemmas and key injectivity -/

/-- Numeric value of a decimal digit character. -/
def charVal : Char → Nat
  | '0' => 0
  | '1' => 1
  | '2' => 2
  | '3' => 3
  | '4' => 4
  | '5' => 5
  | '6' => 6
  | '7' => 7
  | '8' => 8
  | '9' => 9
  | _ => 0

theorem charVal_digitChar (d : Nat) (h : d < 10) : charVal (digitChar d) = d := by
  interval_cases d <;> rfl

theorem digitChar_ne_underscore (d : Nat) : digitChar d ≠ '_' := by
  unfold digitChar
  split <;> decide

theorem natCharsAux_irrel (n : Nat) : ∀ f1 f2 : Nat, n < f1 → n < f2 →
    natCharsAux f1 n = natCharsAux f2 n := by
  induction n using Nat.strong_induction_on with
  | _ n ih =>
    intro f1 f2 h1 h2
    cases f1 with
    | zero => omega
    | succ f1 =>
      cases f2 with
      | zero => omega
      | succ f2 =>
        by_cases h : n < 10
        · simp [natCharsAux, h]
        · have hd : n / 10 < n := Nat.div_lt_self (by omega) (by omega)
          simp only [natCharsAux, if_neg h]
          rw [ih (n / 10) hd f1 f2 (by omega) (by omega)]

theorem natChars_eq (n : Nat) :
    natChars n = if n < 10 then [digitChar n]
      else natChars (n / 10) ++ [digitChar (n % 10)] := by
  by_cases h : n < 10
  · simp [natChars, natCharsAux, h]
  · have hd : n / 10 < n := Nat.div_lt_self (by omega) (by omega)
    simp only [natChars, natCharsAux, if_neg h]
    rw [natCharsAux_irrel (n / 10) n (n / 10 + 1) (by omega) (by omega)]
    rfl

theorem underscore_not_mem_natChars (n : Nat) : '_' ∉ natChars n := by
  induction n using Nat.strong_induction_on with
  | _ n ih =>
    rw [natChars_eq]
    by_cases h : n < 10
    · simp [h, Ne.symm (digitChar_ne_underscore n)]
    · have hd : n / 10 < n := Nat.div_lt_self (by omega) (by omega)
      simp [h, ih (n / 10) hd, Ne.symm (digitChar_ne_underscore (n % 10))]

theorem foldl_natChars (n : Nat) : ∀ a : Nat,
    (natChars n).foldl (fun acc c => 10 * acc + charVal c) a =
      a * 10 ^ (natChars n).length + n := by
  induction n using Nat.strong_induction_on with
  | _ n ih =>
    intro a
    rw [natChars_eq]
    by_cases h : n < 10
    · simp [h, charVal_digitChar n h]
      omega
    · have hd : n / 10 < n := Nat.div_lt_self (by omega) (by omega)
      simp only [if_neg h, List.foldl_append, List.foldl_cons, List.foldl_nil,
        List.length_append, List.length_cons, List.length_nil]
      rw [ih (n / 10) hd a, charVal_digitChar (n % 10) (Nat.mod_lt n (by omega))]
      rw [Nat.zero_add, pow_succ, ← mul_assoc]
      omega

theorem natChars_inj (a b : Nat) (h : natChars a = natChars b) : a = b := by
  have ha := foldl_natChars a 0
  have hb := foldl_natChars b 0
  rw [h] at ha
  simp only [Nat.zero_mul, Nat.zero_add] at ha hb
  omega

theorem append_mid_inj (c : Char) : ∀ xs ys us vs : List Char, c ∉ xs → c ∉ ys →
    xs ++ c :: us = ys ++ c :: vs → xs = ys ∧ us = vs := by
  intro xs
  induction xs with
  | nil =>
    intro ys us vs _ hy h
    cases ys with
    | nil => simpa using h
    | cons y ys =>
      simp only [List.nil_append, List.cons_append, List.cons.injEq] at h
      exact absurd (h.1 ▸ List.mem_cons_self y ys) hy
  | cons x xs ih =>
    intro ys us vs hx hy h
    cases ys with
    | nil =>
      simp only [List.cons_append, List.nil_append, List.cons.injEq] at h
      exact absurd (h.1 ▸ List.mem_cons_self x xs) (h.1 ▸ hx)
    | cons y ys =>
      simp only [List.cons_append, List.cons.injEq] at h
      have hx2 : c ∉ xs := fun hm => hx (List.mem_cons_of_mem x hm)
      have hy2 : c ∉ ys := fun hm => hy (List.mem_cons_of_mem y hm)
      obtain ⟨h1, h2⟩ := ih ys us vs hx2 hy2 h.2
      exact ⟨by rw [h.1, h1], h2⟩

theorem chunkKey_data (a : Nat) (m : String) :
    (chunkKey a m).data = natChars a ++ '_' :: m.data := by
  simp [chunkKey, natStr, String.data_append]

theorem chunkKey_ne (a b : Nat) (m1 m2 : String) (h : a ≠ b) :
    chunkKey a m1 ≠ chunkKey b m2 := by
  intro he
  have hd : natChars a ++ '_' :: m1.data = natChars b ++ '_' :: m2.data := by
    have := congrArg String.data he
    rwa [chunkKey_data, chunkKey_data] at this
  obtain ⟨h1, _⟩ := append_mid_inj '_' (natChars a) (natChars b) m1.data m2.data
    (underscore_not_mem_natChars a) (underscore_not_mem_natChars b) hd
  exact h (natChars_inj a b h1)

/-- Frame property: one `handleChunkedMessage` call touches only the key
derived from its own (session, message id) pair. -/
theorem handleChunkedMessage_frame (r : Nat) (c : Chunk) (m : BufMap)
    (k : String) (hk : k ≠ chunkKey r c.id) :
    lookupBuf (handleChunkedMessage r c m).1 k = lookupBuf m k := by
  have hsetg : ∀ (m2 : BufMap) (v : ChunkMsg),
      lookupBuf (setBuf m2 (chunkKey r c.id) v) k = lookupBuf m2 k :=
    fun m2 v => lookupBuf_setBuf_ne m2 (chunkKey r c.id) k v hk
  have herase : ∀ m2 : BufMap,
      lookupBuf (eraseBuf m2 (chunkKey r c.id)) k = lookupBuf m2 k :=
    fun m2 => lookupBuf_eraseBuf_ne m2 (chunkKey r c.id) k hk
  unfold handleChunkedMessage
  cases c.data with
  | none => rfl
  | some d =>
    by_cases he : d = ""
    · simp [he]
    · simp only [if_neg he]
      cases hm : lookupBuf m (chunkKey r c.id) with
      | some b =>
        simp only [hm]
        by_cases hf : (jsGet b.chunks c.index).isSome
        · simp [hf]
        · by_cases hc : b.receivedCount + 1 = b.total <;>
            simp [hf, hc, hsetg, herase]
      | none =>
        simp only [hm, lookupBuf_setBuf_self]
        by_cases hf : (jsGet (List.replicate c.total (none : Option String))
            c.index).isSome
        · simp [hf, hsetg]
        · by_cases hc : 0 + 1 = c.total <;>
            simp [hf, hc, hsetg, herase]

/-! ### C5: no cross-session bleed -/

/-- C5: the buffer key is injective over distinct session identifiers (the
decimal robot id contains no underscore, so the `${robotId}_${id}` key
parses unambiguously), and a fragment arriving on session A leaves every
buffer keyed by a different session B untouched. -/
theorem no_cross_session_bleed (A B : Nat) (M1 M2 : String) (c : Chunk)
    (m : BufMap) (hAB : A ≠ B) :
    chunkKey A M1 ≠ chunkKey B M2 ∧
    lookupBuf (handleChunkedMessage A c m).1 (chunkKey B M2) =
      lookupBuf m (chunkKey B M2) := by
  refine ⟨chunkKey_ne A B M1 M2 hAB, ?_⟩
  exact handleChunkedMessage_frame A c m (chunkKey B M2)
    (chunkKey_ne B A M2 c.id (Ne.symm hAB))

/-- C5 witness: a fragment for message "x" on session 1 does not disturb
session 2's in-flight buffer for the same message id "x". -/
theorem no_cross_session_bleed_witness :
    chunkKey 1 "x" ≠ chunkKey 2 "x" ∧
    lookupBuf (handleChunkedMessage 1 ⟨"x", 0, 2, some "a"⟩
        [(chunkKey 2 "x", ⟨[some "b", none], 1, 2⟩)]).1 (chunkKey 2 "x") =
      lookupBuf [(chunkKey 2 "x", ⟨[some "b", none], 1, 2⟩)] (chunkKey 2 "x") :=
  no_cross_session_bleed 1 2 "x" "x" ⟨"x", 0, 2, some "a"⟩
    [(chunkKey 2 "x", ⟨[some "b", none], 1, 2⟩)] (by decide)

/-! ### Execution-engine trace lemmas -/

/-- The dispatch trace of one full pass over an instruction list. -/
def dispatchList (robots : RobotMap) (w : Nat → Option String)
    (instrs : List Instruction) : List Sig :=
  instrs.map (fun ins => Sig.dispatch ins.tool (executeToolOnAll robots w ins.tool))

/-- `j` back-to-back copies of an iteration trace. -/
def repeatTrace (D : List Sig) : Nat → List Sig
  | 0 => []
  | j + 1 => D ++ repeatTrace D j

theorem mem_repeatTrace (D : List Sig) (j : Nat) (x : Sig)
    (h : x ∈ repeatTrace D j) : x ∈ D := by
  induction j with
  | zero => simp [repeatTrace] at h
  | succ j ih =>
    simp only [repeatTrace, List.mem_append] at h
    exact h.elim id ih

theorem startSig_not_mem_dispatchList (robots : RobotMap) (w : Nat → Option String)
    (instrs : List Instruction) : Sig.startSig ∉ dispatchList robots w instrs := by
  simp [dispatchList]

theorem stopSig_not_mem_dispatchList (robots : RobotMap) (w : Nat → Option String)
    (instrs : List Instruction) : Sig.stopSig ∉ dispatchList robots w instrs := by
  simp [dispatchList]

theorem nextEv_not_fStop (evs : List Ev) (h : Ev.fStop ∉ evs) :
    (nextEv evs).1 ≠ Ev.fStop ∧ Ev.fStop ∉ (nextEv evs).2 := by
  cases evs with
  | nil => simp [nextEv]
  | cons e r =>
    simp only [List.mem_cons, not_or] at h
    exact ⟨fun he => h.1 he.symm, by simpa [nextEv] using h.2⟩

theorem applyEv_not_fStop (e : Ev) (s : ExecState) (he : e ≠ Ev.fStop) :
    (applyEv e s).2 = [] ∧ (applyEv e s).1.isRunning = s.isRunning ∧
    (applyEv e s).1.runMode = s.runMode := by
  cases e with
  | tick => simp [applyEv]
  | reqStop => by_cases h : s.isRunning <;> simp [applyEv, requestStop, h]
  | fStop => exact absurd rfl he

theorem runInstrs_noFStop (robots : RobotMap) (w : Nat → Option String) :
    ∀ (instrs : List Instruction) (i : Nat) (s : ExecState) (evs : List Ev),
    Ev.fStop ∉ evs → s.isRunning = true →
    (runInstrs robots w instrs i s evs).2.2 = dispatchList robots w instrs ∧
    (runInstrs robots w instrs i s evs).1.isRunning = true ∧
    (runInstrs robots w instrs i s evs).1.runMode = s.runMode ∧
    Ev.fStop ∉ (runInstrs robots w instrs i s evs).2.1 := by
  intro instrs
  induction instrs with
  | nil =>
    intro i s evs hev hrun
    simp [runInstrs, dispatchList, hrun, hev]
  | cons ins rest ih =>
    intro i s evs hev hrun
    cases hE : nextEv evs with
    | mk e evs1 =>
      cases hA : applyEv e s with
      | mk sA trA =>
        have hnf := nextEv_not_fStop evs hev
        rw [hE] at hnf
        have hnfB : Ev.fStop ∉ evs1 := hnf.2
        have hap := applyEv_not_fStop e s hnf.1
        rw [hA] at hap
        have htrA : trA = [] := hap.1
        have hmA : sA.runMode = s.runMode := hap.2.2
        have hrA2 : sA.isRunning = true := hap.2.1.trans hrun
        have ihx := ih (i + 1) { sA with currentInstructionIndex := i } evs1
          hnfB (by simpa using hrA2)
        rw [hrA2] at ihx
        simp only [runInstrs, hE, hA, hrA2, eq_self_iff_true, if_true, htrA,
          List.nil_append]
        refine ⟨?_, ihx.2.1, ?_, ihx.2.2.2⟩
        · rw [ihx.1]
          simp [dispatchList]
        · rw [ihx.2.2.1]
          exact hmA

theorem execBody_noFStop (robots : RobotMap) (w : Nat → Option String)
    (instrs : List Instruction) :
    ∀ (fuel : Nat) (s : ExecState) (evs : List Ev) (s2 : ExecState)
      (evs2 : List Ev) (tr : List Sig),
    Ev.fStop ∉ evs → s.isRunning = true →
    execBody robots w instrs fuel s evs = some (s2, evs2, tr) →
    ∃ j, 1 ≤ j ∧ tr = repeatTrace (dispatchList robots w instrs) j ∧
      s2.runMode = s.runMode := by
  intro fuel
  induction fuel with
  | zero => intro s evs s2 evs2 tr _ _ h; exact absurd h (by simp [execBody])
  | succ fuel ih =>
    intro s evs s2 evs2 tr hev hrun h
    cases hR : runInstrs robots w instrs 0 { s with loopCount := s.loopCount + 1 }
        evs with
    | mk s1 p =>
      cases p with
      | mk evs1 tr1 =>
        have hri := runInstrs_noFStop robots w instrs 0
          { s with loopCount := s.loopCount + 1 } evs hev (by simpa using hrun)
        rw [hR] at hri
        have htr1 : tr1 = dispatchList robots w instrs := hri.1
        have hr1run : s1.isRunning = true := hri.2.1
        have hr1mode : s1.runMode = s.runMode := hri.2.2.1
        have hnf1 : Ev.fStop ∉ evs1 := hri.2.2.2
        cases hE : nextEv evs1 with
        | mk e evsB =>
          cases hA : applyEv e s1 with
          | mk sA trA =>
            have hnf := nextEv_not_fStop evs1 hnf1
            rw [hE] at hnf
            have hnfB : Ev.fStop ∉ evsB := hnf.2
            have hap := applyEv_not_fStop e s1 hnf.1
            rw [hA] at hap
            have htrA : trA = [] := hap.1
            have hrA2 : sA.isRunning = true := hap.2.1.trans hr1run
            have hmA2 : sA.runMode = s.runMode := hap.2.2.trans hr1mode
            simp only [execBody, hR, hE, hA] at h
            by_cases hcond : sA.runMode = RunMode.loop ∧ sA.shouldStop = false ∧
                sA.isRunning = true
            · rw [if_pos hcond] at h
              cases hrec : execBody robots w instrs fuel sA evsB with
              | none => rw [hrec] at h; exact absurd h (by simp)
              | some out =>
                cases out with
                | mk s3 q3 =>
                  cases q3 with
                  | mk evs3 tr3 =>
                    rw [hrec] at h
                    simp only [Option.some.injEq, Prod.mk.injEq] at h
                    obtain ⟨hs3, _, htr⟩ := h
                    obtain ⟨j, hj1, hj2, hj3⟩ := ih sA evsB s3 evs3 tr3 hnfB
                      hrA2 hrec
                    refine ⟨j + 1, by omega, ?_, ?_⟩
                    · rw [← htr, htr1, htrA, hj2]
                      simp [repeatTrace]
                    · rw [← hs3, hj3, hmA2]
            · rw [if_neg hcond] at h
              simp only [Option.some.injEq, Prod.mk.injEq] at h
              obtain ⟨hs2, _, htr⟩ := h
              refine ⟨1, le_refl 1, ?_, ?_⟩
              · rw [← htr, htr1, htrA]
                simp [repeatTrace]
              · rw [← hs2, hmA2]

theorem execBody_once_total (robots : RobotMap) (w : Nat → Option String)
    (instrs : List Instruction) (fuel : Nat) (s : ExecState) (evs : List Ev)
    (hm : s.runMode = RunMode.once) (hrun : s.isRunning = true)
    (hev : Ev.fStop ∉ evs) :
    ∃ s2 evs2, execBody robots w instrs (fuel + 1) s evs =
      some (s2, evs2, dispatchList robots w instrs) := by
  cases hR : runInstrs robots w instrs 0 { s with loopCount := s.loopCount + 1 }
      evs with
  | mk s1 p =>
    cases p with
    | mk evs1 tr1 =>
      have hri := runInstrs_noFStop robots w instrs 0
        { s with loopCount := s.loopCount + 1 } evs hev (by simpa using hrun)
      rw [hR] at hri
      have htr1 : tr1 = dispatchList robots w instrs := hri.1
      have hr1mode : s1.runMode = s.runMode := hri.2.2.1
      have hnf1 : Ev.fStop ∉ evs1 := hri.2.2.2
      cases hE : nextEv evs1 with
      | mk e evsB =>
        cases hA : applyEv e s1 with
        | mk sA trA =>
          have hnf := nextEv_not_fStop evs1 hnf1
          rw [hE] at hnf
          have hap := applyEv_not_fStop e s1 hnf.1
          rw [hA] at hap
          have htrA : trA = [] := hap.1
          have hmA2 : sA.runMode = RunMode.once := by
            rw [hap.2.2.trans hr1mode, hm]
          have hcond : ¬ (sA.runMode = RunMode.loop ∧ sA.shouldStop = false ∧
              sA.isRunning = true) := by
            rw [hmA2]
            simp
          refine ⟨sA, evsB, ?_⟩
          simp only [execBody, hR, hE, hA, if_neg hcond, htrA, List.append_nil]
          rw [htr1]

theorem finishRun_shape (res : Option (Bool × ExecState × List Ev × List Sig))
    (s2 : ExecState) (tr : List Sig)
    (h : finishRun res = some (true, s2, tr)) :
    ∃ evsx trx, res = some (true, s2, evsx, trx) ∧
      tr = Sig.startSig :: (trx ++ [Sig.stopSig]) := by
  cases res with
  | none => exact absurd h (by simp [finishRun])
  | some out =>
    obtain ⟨b, sB, evsB, trB⟩ := out
    simp only [finishRun, Option.some.injEq, Prod.mk.injEq] at h
    obtain ⟨hb, hs, htr⟩ := h
    exact ⟨evsB, trB, by rw [hb, hs], htr.symm⟩

theorem executeAction_trace_shape (robots : RobotMap) (w : Nat → Option String)
    (fuel : Nat) (s : ExecState) (evs : List Ev) (act : Action) (b : Bool)
    (s2 : ExecState) (evs2 : List Ev) (tr : List Sig)
    (hev : Ev.fStop ∉ evs)
    (hact : s.currentAction = some act)
    (h : executeAction robots w fuel s evs = some (b, s2, evs2, tr)) :
    b = true ∧ ∃ j, 1 ≤ j ∧
      tr = repeatTrace (dispatchList robots w act.instructions) j := by
  unfold executeAction at h
  split at h
  next hnone =>
    rw [hact] at hnone
    exact absurd hnone (by simp)
  next act2 hsome =>
    obtain rfl := Option.some.inj (hact.symm.trans hsome)
    dsimp only at h
    split at h
    next => exact absurd h (by simp)
    next s1 evs1 tr1 hsome2 =>
      simp only [Option.some.injEq, Prod.mk.injEq] at h
      obtain ⟨hb, _, _, htr⟩ := h
      obtain ⟨j, hj1, hj2, _⟩ := execBody_noFStop robots w act.instructions
        fuel { s with isRunning := true } evs s1 evs1 tr1 hev rfl hsome2
      exact ⟨hb.symm, j, hj1, htr ▸ hj2⟩

theorem run_trace_shape (robots : RobotMap) (w : Nat → Option String)
    (actions : List (String × Action)) (fuel : Nat) (actionId : String)
    (s : ExecState) (evs : List Ev) (s2 : ExecState) (tr : List Sig)
    (hev : Ev.fStop ∉ evs)
    (h : runOnce robots w actions fuel actionId s evs = some (true, s2, tr) ∨
         runLoop robots w actions fuel actionId s evs = some (true, s2, tr)) :
    ∃ act j, getAction actions actionId = some act ∧ 1 ≤ j ∧
      tr = Sig.startSig ::
        (repeatTrace (dispatchList robots w act.instructions) j ++ [Sig.stopSig]) := by
  rcases h with h | h
  · unfold runOnce at h
    split at h
    next => exact absurd h (by simp)
    next act hga =>
      split at h
      · exact absurd h (by simp)
      · split at h
        · exact absurd h (by simp)
        · obtain ⟨evsx, trx, hea, htr⟩ := finishRun_shape _ _ _ h
          obtain ⟨_, j, hj1, hj2⟩ := executeAction_trace_shape robots w fuel _
            evs act true s2 evsx trx hev rfl hea
          exact ⟨act, j, hga, hj1, by rw [htr, hj2]⟩
  · unfold runLoop at h
    split at h
    next => exact absurd h (by simp)
    next act hga =>
      split at h
      · exact absurd h (by simp)
      · split at h
        · exact absurd h (by simp)
        · obtain ⟨evsx, trx, hea, htr⟩ := finishRun_shape _ _ _ h
          obtain ⟨_, j, hj1, hj2⟩ := executeAction_trace_shape robots w fuel _
            evs act true s2 evsx trx hev rfl hea
          exact ⟨act, j, hga, hj1, by rw [htr, hj2]⟩

/-! ### C1: bracket symmetry -/

/-- One connected robot whose writes all succeed. -/
def demoRobots : RobotMap := [(1, "R1")]

/-- Write oracle with no failures. -/
def demoW : Nat → Option String := fun _ => none

/-- A one-instruction action. -/
def demoAction : Action := ⟨"wave", [⟨"pose", 0⟩]⟩

/-- The stored actions. -/
def demoActions : List (String × Action) := [("a1", demoAction)]

/-- Idle controller state. -/
def idleState : ExecState := ⟨false, false, none, 0, 0, RunMode.once⟩

/-- C1 counterexample: a run ended by `forceStop` attempts the stop-signal
broadcast twice (once inside `forceStop`, once in the run epilogue), not
exactly once as claimed; the start signal is still attempted once. -/
theorem forced_stop_double_stop_cx :
    (runOnce demoRobots demoW demoActions 2 "a1" idleState [Ev.fStop]).map
      (fun r => (r.2.2.count Sig.stopSig, r.2.2.count Sig.startSig)) =
      some (2, 1) := by rfl

/-- C1 (amended): on every run that starts and terminates without a
`forceStop` intervention (normal completion or graceful stop, in either
mode), the start broadcast is attempted exactly once and the stop
broadcast exactly once, start first, stop last; each `forceStop` during a
run adds one extra stop-broadcast attempt (see the counterexample). -/
theorem bracket_symmetry_amended (robots : RobotMap) (w : Nat → Option String)
    (actions : List (String × Action)) (fuel : Nat) (actionId : String)
    (s : ExecState) (evs : List Ev) (s2 : ExecState) (tr : List Sig)
    (hev : Ev.fStop ∉ evs)
    (h : runOnce robots w actions fuel actionId s evs = some (true, s2, tr) ∨
         runLoop robots w actions fuel actionId s evs = some (true, s2, tr)) :
    tr.count Sig.startSig = 1 ∧ tr.count Sig.stopSig = 1 ∧
    tr.head? = some Sig.startSig ∧ tr.getLast? = some Sig.stopSig := by
  obtain ⟨act, j, hga, hj, htr⟩ :=
    run_trace_shape robots w actions fuel actionId s evs s2 tr hev h
  subst htr
  have h1 : Sig.startSig ∉ repeatTrace (dispatchList robots w act.instructions) j :=
    fun hm => startSig_not_mem_dispatchList robots w act.instructions
      (mem_repeatTrace _ _ _ hm)
  have h2 : Sig.stopSig ∉ repeatTrace (dispatchList robots w act.instructions) j :=
    fun hm => stopSig_not_mem_dispatchList robots w act.instructions
      (mem_repeatTrace _ _ _ hm)
  refine ⟨?_, ?_, rfl, ?_⟩
  · simp [List.count_cons, List.count_append, List.count_eq_zero.mpr h1]
  · simp [List.count_cons, List.count_append, List.count_eq_zero.mpr h2]
  · exact List.getLast?_concat
      (Sig.startSig :: repeatTrace (dispatchList robots w act.instructions) j)

/-- C1 witness: a concrete clean run shows the bracket property. -/
theorem bracket_symmetry_amended_witness :
    [Sig.startSig, Sig.dispatch "pose" [⟨1, "R1", true, none⟩],
        Sig.stopSig].count Sig.startSig = 1 ∧
    [Sig.startSig, Sig.dispatch "pose" [⟨1, "R1", true, none⟩],
        Sig.stopSig].count Sig.stopSig = 1 ∧
    [Sig.startSig, Sig.dispatch "pose" [⟨1, "R1", true, none⟩],
        Sig.stopSig].head? = some Sig.startSig ∧
    [Sig.startSig, Sig.dispatch "pose" [⟨1, "R1", true, none⟩],
        Sig.stopSig].getLast? = some Sig.stopSig :=
  bracket_symmetry_amended demoRobots demoW demoActions 2 "a1" idleState []
    ⟨false, false, some demoAction, 0, 2, RunMode.once⟩
    [Sig.startSig, Sig.dispatch "pose" [⟨1, "R1", true, none⟩], Sig.stopSig]
    (by simp) (Or.inl (by rfl))

/-! ### C7: graceful stop never truncates an iteration -/

/-- C7: in loop mode, for every completed run whose interventions are
graceful stop requests only (no `forceStop`), the dispatch trace consists
of whole copies of the action's full instruction list: a `requestStop`
landing during instruction i of an iteration never truncates that
iteration — the remaining instructions are still dispatched before the
run exits. -/
theorem graceful_stop_iteration_complete (robots : RobotMap)
    (w : Nat → Option String) (actions : List (String × Action)) (fuel : Nat)
    (actionId : String) (s : ExecState) (evs : List Ev) (s2 : ExecState)
    (tr : List Sig)
    (hev : Ev.fStop ∉ evs)
    (h : runLoop robots w actions fuel actionId s evs = some (true, s2, tr)) :
    ∃ act j, getAction actions actionId = some act ∧ 1 ≤ j ∧
      tr = Sig.startSig ::
        (repeatTrace (dispatchList robots w act.instructions) j ++ [Sig.stopSig]) :=
  run_trace_shape robots w actions fuel actionId s evs s2 tr hev (Or.inr h)

/-- C7 witness: a loop run stopped by `requestStop` during its first
iteration still dispatches the full iteration. -/
theorem graceful_stop_iteration_complete_witness :
    ∃ act j, getAction demoActions "a1" = some act ∧ 1 ≤ j ∧
      [Sig.startSig, Sig.dispatch "pose" [⟨1, "R1", true, none⟩], Sig.stopSig] =
        Sig.startSig ::
          (repeatTrace (dispatchList demoRobots demoW act.instructions) j ++
            [Sig.stopSig]) :=
  graceful_stop_iteration_complete demoRobots demoW demoActions 2 "a1"
    idleState [Ev.reqStop]
    ⟨false, true, some demoAction, 0, 1, RunMode.loop⟩
    [Sig.startSig, Sig.dispatch "pose" [⟨1, "R1", true, none⟩], Sig.stopSig]
    (by simp) (by rfl)

/-! ### C9: per-session write failures are non-fatal -/

/-- C9: whatever the write oracle `w` (any subset of sessions may fail
each write), a started single-pass run dispatches every instruction, each
dispatch records the per-robot outcomes produced by `executeToolOnAll`
(failures included), and the run returns `true` — normal completion, not
the failed state. -/
theorem write_failure_nonfatal (robots : RobotMap) (w : Nat → Option String)
    (actions : List (String × Action)) (fuel : Nat) (actionId : String)
    (s : ExecState) (evs : List Ev) (act : Action)
    (hga : getAction actions actionId = some act)
    (hrun : s.isRunning = false)
    (hrob : ¬ robots.length = 0)
    (hev : Ev.fStop ∉ evs) :
    ∃ s2, runOnce robots w actions (fuel + 1) actionId s evs =
      some (true, s2, Sig.startSig ::
        (dispatchList robots w act.instructions ++ [Sig.stopSig])) := by
  obtain ⟨sB, evsB, hbody⟩ := execBody_once_total robots w act.instructions fuel
    { s with isRunning := true, runMode := RunMode.once,
             currentAction := some act, loopCount := 1, shouldStop := false }
    evs rfl rfl hev
  have hea : executeAction robots w (fuel + 1)
      { s with runMode := RunMode.once, currentAction := some act,
               loopCount := 1, shouldStop := false } evs =
      some (true, { sB with isRunning := false }, evsB,
        dispatchList robots w act.instructions) := by
    unfold executeAction
    dsimp only
    rw [hbody]
  refine ⟨{ sB with isRunning := false }, ?_⟩
  unfold runOnce
  rw [hga]
  dsimp only
  rw [if_neg (by simp [hrun]), if_neg hrob, hea]
  rfl

/-- Registry and oracle where robot 2's writes always fail. -/
def c9Robots : RobotMap := [(1, "R1"), (2, "R2")]

/-- Write oracle: robot 2 fails every write. -/
def c9W : Nat → Option String :=
  fun rid => if rid = 2 then some "GATT operation failed" else none

/-- A two-instruction action. -/
def c9Action : Action := ⟨"wave", [⟨"pose", 0⟩, ⟨"gesture", 0⟩]⟩

/-- The stored actions for the C9 witness. -/
def c9Actions : List (String × Action) := [("a1", c9Action)]

/-- C9 witness: with robot 2 failing every write, the run still dispatches
both instructions to both robots and completes normally. -/
theorem write_failure_nonfatal_witness :
    ∃ s2, runOnce c9Robots c9W c9Actions 2 "a1" idleState [] =
      some (true, s2, Sig.startSig ::
        (dispatchList c9Robots c9W c9Action.instructions ++ [Sig.stopSig])) :=
  write_failure_nonfatal c9Robots c9W c9Actions 1 "a1" idleState [] c9Action
    (by rfl) (by rfl) (by simp [c9Robots]) (by simp)

/-! ### C4: order independence of fragment delivery -/

/-- The index-`i` fragment of a message whose payload list is `pl`. -/
def mkChunk (mid : String) (n : Nat) (pl : List String) (i : Nat) : Chunk :=
  ⟨mid, i, n, some (pl.getD i "")⟩

/-- Buffer slots after the fragments with indices in `done` were stored. -/
def markedChunks (pl : List String) (done : List Nat) : List (Option String) :=
  (List.range pl.length).map
    (fun i => if i ∈ done then some (pl.getD i "") else none)

/-- The reassembly buffer after the fragments in `done` arrived. -/
def markedBuf (pl : List String) (done : List Nat) : ChunkMsg :=
  ⟨markedChunks pl done, done.length, pl.length⟩

theorem deliverAll_nil (r : Nat) (m : BufMap) : deliverAll r [] m = (m, []) := rfl

theorem deliverAll_cons (r : Nat) (c : Chunk) (cs : List Chunk) (m : BufMap) :
    deliverAll r (c :: cs) m =
      ((deliverAll r cs (handleChunkedMessage r c m).1).1,
        (handleChunkedMessage r c m).2.toList ++
          (deliverAll r cs (handleChunkedMessage r c m).1).2) := rfl

theorem deliverAll_cons_congr (r : Nat) (c : Chunk) (cs : List Chunk)
    (m1 m2 : BufMap)
    (h : handleChunkedMessage r c m1 = handleChunkedMessage r c m2) :
    deliverAll r (c :: cs) m1 = deliverAll r (c :: cs) m2 := by
  rw [deliverAll_cons, deliverAll_cons, h]

theorem markedChunks_length (pl : List String) (done : List Nat) :
    (markedChunks pl done).length = pl.length := by
  simp [markedChunks]

theorem markedChunks_nil (pl : List String) :
    markedChunks pl [] = List.replicate pl.length none := by
  refine List.eq_replicate_iff.mpr ⟨markedChunks_length pl [], ?_⟩
  intro b hb
  simp only [markedChunks, List.mem_map, List.not_mem_nil, if_false] at hb
  obtain ⟨i, _, hbi⟩ := hb
  exact hbi.symm

theorem markedChunks_getElem? (pl : List String) (done : List Nat) (j : Nat) :
    (markedChunks pl done)[j]? =
      if j < pl.length then
        some (if j ∈ done then some (pl.getD j "") else none)
      else none := by
  by_cases hj : j < pl.length
  · rw [if_pos hj]
    simp [markedChunks, List.getElem?_range hj]
  · rw [if_neg hj]
    exact List.getElem?_eq_none (by rw [markedChunks_length]; omega)

theorem jsGet_markedChunks (pl : List String) (done : List Nat) (j : Nat) :
    jsGet (markedChunks pl done) j =
      if j < pl.length ∧ j ∈ done then some (pl.getD j "") else none := by
  rw [jsGet, List.getD_eq_getElem?_getD, markedChunks_getElem?]
  by_cases hj : j < pl.length
  · by_cases hd : j ∈ done <;> simp [hj, hd]
  · simp [hj]

theorem jsSet_markedChunks (pl : List String) (done : List Nat) (i : Nat)
    (hi : i < pl.length) :
    jsSet (markedChunks pl done) i (pl.getD i "") =
      markedChunks pl (done ++ [i]) := by
  rw [jsSet, if_pos (by rw [markedChunks_length]; exact hi)]
  refine List.ext_getElem? fun j => ?_
  simp only [List.getElem?_set, markedChunks_getElem?, markedChunks_length]
  by_cases hij : i = j
  · subst hij
    simp [hi]
  · simp only [hij, if_false]
    by_cases hj : j < pl.length
    · simp [hj, List.mem_append, Ne.symm hij]
    · simp [hj]

theorem joinChunks_markedChunks_full (pl : List String) (done : List Nat)
    (hall : ∀ i < pl.length, i ∈ done) :
    joinChunks (markedChunks pl done) = String.join pl := by
  have hmap : (markedChunks pl done).map (fun o => o.getD "") = pl := by
    refine List.ext_getElem? fun j => ?_
    rw [List.getElem?_map, markedChunks_getElem?]
    by_cases hj : j < pl.length
    · simp [hj, hall j hj, List.getD_eq_getElem?_getD, List.getElem?_eq_getElem hj]
    · simp [hj, List.getElem?_eq_none (le_of_not_lt hj)]
  rw [joinChunks, hmap]

theorem mem_of_nodup_bound_length (n : Nat) (done : List Nat)
    (hnd : done.Nodup) (hlen : done.length = n) (hlt : ∀ i ∈ done, i < n) :
    ∀ i < n, i ∈ done := by
  intro i hi
  have hsub : done.toFinset ⊆ Finset.range n := by
    intro x hx
    rw [List.mem_toFinset] at hx
    exact Finset.mem_range.mpr (hlt x hx)
  have hcard : (Finset.range n).card ≤ done.toFinset.card := by
    rw [List.toFinset_card_of_nodup hnd, Finset.card_range, hlen]
  have heq := Finset.eq_of_subset_of_card_le hsub hcard
  have hmem : i ∈ done.toFinset := heq ▸ Finset.mem_range.mpr hi
  exact List.mem_toFinset.mp hmem

theorem getD_mem_of_lt (pl : List String) (i : Nat) (hi : i < pl.length) :
    pl.getD i "" ∈ pl := by
  rw [List.getD_eq_getElem?_getD, List.getElem?_eq_getElem hi]
  exact List.getElem_mem hi

theorem handle_marked_step (r : Nat) (mid : String) (pl : List String)
    (done : List Nat) (i0 : Nat) (m : BufMap)
    (hnem : ∀ x ∈ pl, x ≠ "")
    (hi0 : i0 < pl.length)
    (hnd : done.Nodup)
    (hni : i0 ∉ done)
    (hdlt : ∀ i ∈ done, i < pl.length) :
    handleChunkedMessage r (mkChunk mid pl.length pl i0)
        (setBuf m (chunkKey r mid) (markedBuf pl done)) =
      if done.length + 1 = pl.length then
        (eraseBuf (setBuf m (chunkKey r mid) (markedBuf pl done))
          (chunkKey r mid), some (String.join pl))
      else
        (setBuf m (chunkKey r mid) (markedBuf pl (done ++ [i0])), none) := by
  have hd0 : pl.getD i0 "" ≠ "" := hnem _ (getD_mem_of_lt pl i0 hi0)
  unfold handleChunkedMessage
  dsimp only [mkChunk, markedBuf]
  rw [if_neg hd0]
  simp only [lookupBuf_setBuf_self]
  rw [jsGet_markedChunks,
    if_neg (show ¬ (i0 < pl.length ∧ i0 ∈ done) from fun h => hni h.2)]
  simp only [Option.isSome_none, Bool.false_eq_true, if_false]
  rw [jsSet_markedChunks pl done i0 hi0]
  by_cases hfill : done.length + 1 = pl.length
  · rw [if_pos hfill, if_pos hfill]
    have hnd2 : (done ++ [i0]).Nodup := by
      rw [List.nodup_append]
      refine ⟨hnd, List.nodup_singleton i0, ?_⟩
      intro a ha hb
      rw [List.mem_singleton] at hb
      exact hni (hb ▸ ha)
    have hlt2 : ∀ i ∈ done ++ [i0], i < pl.length := by
      intro i hi
      rcases List.mem_append.mp hi with h | h
      · exact hdlt i h
      · rw [List.mem_singleton] at h
        omega
    have hcover := mem_of_nodup_bound_length pl.length (done ++ [i0]) hnd2
      (by simp; omega) hlt2
    rw [joinChunks_markedChunks_full pl (done ++ [i0]) hcover]
  · rw [if_neg hfill, if_neg hfill, setBuf_setBuf]
    simp [markedBuf]

theorem handle_fresh_create (r : Nat) (c : Chunk) (m : BufMap) (d : String)
    (hd : c.data = some d) (hne : d ≠ "")
    (hfresh : lookupBuf m (chunkKey r c.id) = none) :
    handleChunkedMessage r c m =
      handleChunkedMessage r c
        (setBuf m (chunkKey r c.id) ⟨List.replicate c.total none, 0, c.total⟩) := by
  unfold handleChunkedMessage
  rw [hd]
  simp only [if_neg hne, hfresh, lookupBuf_setBuf_self, setBuf_setBuf]

theorem deliver_marked (r : Nat) (mid : String) (pl : List String) (m : BufMap)
    (hnem : ∀ x ∈ pl, x ≠ "")
    (hfresh : lookupBuf m (chunkKey r mid) = none) :
    ∀ (rest done : List Nat),
    (done ++ rest).Nodup →
    (∀ i ∈ done ++ rest, i < pl.length) →
    done.length + rest.length = pl.length →
    rest ≠ [] →
    deliverAll r (rest.map (mkChunk mid pl.length pl))
        (setBuf m (chunkKey r mid) (markedBuf pl done)) =
      (m, [String.join pl]) := by
  intro rest
  induction rest with
  | nil => intro done _ _ _ hne; exact absurd rfl hne
  | cons i0 rest ih =>
    intro done hnd hlt hlen _
    have hi0lt : i0 < pl.length := hlt i0 (by simp)
    have hi0nd : i0 ∉ done := by
      rw [List.nodup_append] at hnd
      exact fun h => hnd.2.2 h (by simp)
    have hdnd : done.Nodup := (List.nodup_append.mp hnd).1
    have hdlt : ∀ i ∈ done, i < pl.length :=
      fun i hi => hlt i (List.mem_append_left _ hi)
    rw [List.map_cons, deliverAll_cons,
      handle_marked_step r mid pl done i0 m hnem hi0lt hdnd hi0nd hdlt]
    cases rest with
    | nil =>
      have hfill : done.length + 1 = pl.length := by
        simpa using hlen
      simp only [if_pos hfill, List.map_nil]
      dsimp only [deliverAll_nil]
      rw [eraseBuf_setBuf_fresh m (chunkKey r mid) (markedBuf pl done) hfresh]
      rfl
    | cons j rest2 =>
      have hfill : ¬ done.length + 1 = pl.length := by
        simp only [List.length_cons] at hlen
        omega
      simp only [if_neg hfill]
      have hnd2 : ((done ++ [i0]) ++ (j :: rest2)).Nodup := by
        rw [← List.append_cons]
        exact hnd
      have hlt2 : ∀ i ∈ (done ++ [i0]) ++ (j :: rest2), i < pl.length := by
        rw [← List.append_cons]
        exact hlt
      have hlen2 : (done ++ [i0]).length + (j :: rest2).length = pl.length := by
        simp only [List.length_append, List.length_singleton, List.length_cons,
          List.length_nil] at hlen ⊢
        omega
      have hx := ih (done ++ [i0]) hnd2 hlt2 hlen2 (by simp)
      rw [hx]
      rfl

theorem deliver_marked_incomplete (r : Nat) (mid : String) (pl : List String)
    (m : BufMap)
    (hnem : ∀ x ∈ pl, x ≠ "") :
    ∀ (rest done : List Nat),
    (done ++ rest).Nodup →
    (∀ i ∈ done ++ rest, i < pl.length) →
    done.length + rest.length < pl.length →
    deliverAll r (rest.map (mkChunk mid pl.length pl))
        (setBuf m (chunkKey r mid) (markedBuf pl done)) =
      (setBuf m (chunkKey r mid) (markedBuf pl (done ++ rest)), []) := by
  intro rest
  induction rest with
  | nil =>
    intro done _ _ _
    simp [deliverAll_nil]
  | cons i0 rest ih =>
    intro done hnd hlt hlen
    have hi0lt : i0 < pl.length := hlt i0 (by simp)
    have hi0nd : i0 ∉ done := by
      rw [List.nodup_append] at hnd
      exact fun h => hnd.2.2 h (by simp)
    have hdnd : done.Nodup := (List.nodup_append.mp hnd).1
    have hdlt : ∀ i ∈ done, i < pl.length :=
      fun i hi => hlt i (List.mem_append_left _ hi)
    rw [List.map_cons, deliverAll_cons,
      handle_marked_step r mid pl done i0 m hnem hi0lt hdnd hi0nd hdlt]
    have hfill : ¬ done.length + 1 = pl.length := by
      simp only [List.length_cons] at hlen
      omega
    simp only [if_neg hfill]
    have hnd2 : ((done ++ [i0]) ++ rest).Nodup := by
      rw [← List.append_cons]
      exact hnd
    have hlt2 : ∀ i ∈ (done ++ [i0]) ++ rest, i < pl.length := by
      rw [← List.append_cons]
      exact hlt
    have hlen2 : (done ++ [i0]).length + rest.length < pl.length := by
      simp only [List.length_append, List.length_singleton, List.length_cons,
        List.length_nil] at hlen ⊢
      omega
    rw [ih (done ++ [i0]) hnd2 hlt2 hlen2, ← List.append_cons]
    rfl

/-- C4: a message split into payloads `pl` (fragments 0..n-1, n = number
of payloads), delivered in any permutation of the index set, reconstructs
the same message — the in-index-order concatenation `String.join pl` —
and completes exactly when the n-th distinct fragment arrives: every
proper prefix of the permutation emits nothing, the full permutation
emits the reconstructed message once, and the buffer is deleted (the map
returns to its initial value). -/
theorem fragment_order_independence (r : Nat) (mid : String) (pl : List String)
    (perm : List Nat) (m : BufMap)
    (hpl : pl ≠ [])
    (hnem : ∀ x ∈ pl, x ≠ "")
    (hlen : perm.length = pl.length)
    (hnd : perm.Nodup)
    (hmem : ∀ i ∈ perm, i < pl.length)
    (hfresh : lookupBuf m (chunkKey r mid) = none) :
    deliverAll r (perm.map (mkChunk mid pl.length pl)) m =
      (m, [String.join pl]) ∧
    ∀ k < perm.length,
      (deliverAll r ((perm.take k).map (mkChunk mid pl.length pl)) m).2 = [] := by
  cases perm with
  | nil =>
    rw [List.length_nil] at hlen
    exact absurd (List.length_eq_zero.mp hlen.symm) hpl
  | cons p0 prest =>
    have hp0 : p0 < pl.length := hmem p0 (by simp)
    have hmb : markedBuf pl [] =
        ⟨List.replicate pl.length none, 0, pl.length⟩ := by
      simp [markedBuf, markedChunks_nil]
    have hcreate : handleChunkedMessage r (mkChunk mid pl.length pl p0) m =
        handleChunkedMessage r (mkChunk mid pl.length pl p0)
          (setBuf m (chunkKey r mid) (markedBuf pl [])) := by
      rw [hmb]
      exact handle_fresh_create r (mkChunk mid pl.length pl p0) m
        (pl.getD p0 "") rfl (hnem _ (getD_mem_of_lt pl p0 hp0)) hfresh
    constructor
    · rw [List.map_cons, deliverAll_cons_congr r _ _ m _ hcreate,
        ← List.map_cons]
      exact deliver_marked r mid pl m hnem hfresh (p0 :: prest) []
        (by simpa using hnd) (by simpa using hmem) (by simpa using hlen)
        (by simp)
    · intro k hk
      cases k with
      | zero => rw [List.take_zero, List.map_nil, deliverAll_nil]
      | succ k2 =>
        rw [List.take_succ_cons, List.map_cons,
          deliverAll_cons_congr r _ _ m _ hcreate, ← List.map_cons]
        rw [deliver_marked_incomplete r mid pl m hnem (p0 :: prest.take k2) []
          (by simpa using (List.take_sublist (k2 + 1) (p0 :: prest)).nodup hnd)
          (by
            simp only [List.nil_append]
            intro i hi
            exact hmem i (List.take_subset (k2 + 1) (p0 :: prest) hi))
          (by
            simp only [List.length_nil, List.length_cons, List.length_take,
              Nat.zero_add]
            simp only [List.length_cons] at hk hlen
            omega)]

/-- C4 witness: the three payloads of message "x" delivered in the order
1, 0, 2 reconstruct "abcdef", emit nothing before the third distinct
fragment, and leave the buffer map empty again. -/
theorem fragment_order_independence_witness :
    deliverAll 1 ([1, 0, 2].map (mkChunk "x" 3 ["ab", "cd", "ef"])) [] =
      ([], ["abcdef"]) ∧
    ∀ k < 3,
      (deliverAll 1 (([1, 0, 2].take k).map (mkChunk "x" 3 ["ab", "cd", "ef"]))
        []).2 = [] :=
  fragment_order_independence 1 "x" ["ab", "cd", "ef"] [1, 0, 2] []
    (by decide) (by decide) (by decide) (by decide) (by decide) (by rfl)

/-! ### C10: empty-payload fragments -/

/-- Number of filled slots of a buffer's chunk array. -/
def countSome (l : List (Option String)) : Nat := l.countP (fun o => o.isSome)

/-- Invariant of a buffer whose index-`i0` fragment only ever arrives with
an absent or empty payload: slot `i0` is never filled, and the fill count
mirrors the number of filled slots. -/
def c10Inv (n i0 : Nat) (b : ChunkMsg) : Prop :=
  b.total = n ∧ b.chunks.length = n ∧ jsGet b.chunks i0 = none ∧
  b.receivedCount = countSome b.chunks

theorem countSome_le (l : List (Option String)) : countSome l ≤ l.length :=
  List.countP_le_length _

theorem countSome_lt (l : List (Option String)) (i0 : Nat)
    (h : l[i0]? = some none) : countSome l < l.length := by
  induction l generalizing i0 with
  | nil => simp at h
  | cons a l ih =>
    cases i0 with
    | zero =>
      simp only [List.getElem?_cons_zero, Option.some.injEq] at h
      subst h
      simp only [countSome, List.countP_cons, Option.isSome_none,
        Bool.false_eq_true, if_false, List.length_cons]
      have := List.countP_le_length (fun o => o.isSome) (l := l)
      omega
    | succ i =>
      simp only [List.getElem?_cons_succ] at h
      have := ih i h
      simp only [countSome, List.countP_cons, List.length_cons] at this ⊢
      by_cases ha : a.isSome <;> simp [ha] <;> omega

theorem countSome_set (l : List (Option String)) (i : Nat) (d : String)
    (hlt : i < l.length) (hnone : l[i]? = some none) :
    countSome (l.set i (some d)) = countSome l + 1 := by
  have hgl : l[i] = none := by
    rw [List.getElem?_eq_getElem hlt] at hnone
    exact Option.some.inj hnone
  rw [countSome, countSome, List.countP_set _ _ _ _ hlt, hgl]
  simp

theorem countSome_replicate (n : Nat) :
    countSome (List.replicate n (none : Option String)) = 0 := by
  rw [countSome, List.countP_eq_zero]
  intro a ha
  rw [List.eq_of_mem_replicate ha]
  simp

theorem jsGet_replicate (k i : Nat) :
    jsGet (List.replicate k (none : Option String)) i = none := by
  rw [jsGet, List.getD_eq_getElem?_getD, List.getElem?_replicate]
  by_cases h : i < k <;> simp [h]

theorem jsGet_set_ne (l : List (Option String)) (j i : Nat) (v : String)
    (h : j ≠ i) : jsGet (l.set j (some v)) i = jsGet l i := by
  rw [jsGet, jsGet, List.getD_eq_getElem?_getD, List.getD_eq_getElem?_getD,
    List.getElem?_set_ne h]

theorem getElem?_of_jsGet_none (l : List (Option String)) (i : Nat)
    (hi : i < l.length) (h : jsGet l i = none) : l[i]? = some none := by
  rw [jsGet, List.getD_eq_getElem?_getD, List.getElem?_eq_getElem hi] at h
  rw [List.getElem?_eq_getElem hi]
  simpa using h

theorem handle_c10_step (r : Nat) (mid : String) (n i0 : Nat) (c : Chunk)
    (m : BufMap)
    (hi0 : i0 < n)
    (hid : c.id = mid) (htot : c.total = n) (hidx : c.index < n)
    (hemp : c.index = i0 → c.data = none ∨ c.data = some "")
    (hinv : ∀ b, lookupBuf m (chunkKey r mid) = some b → c10Inv n i0 b) :
    (∀ b, lookupBuf (handleChunkedMessage r c m).1 (chunkKey r mid) = some b →
      c10Inv n i0 b) ∧
    (handleChunkedMessage r c m).2 = none := by
  cases hdat : c.data with
  | none =>
    simp only [handleChunkedMessage, hdat]
    exact ⟨hinv, by simp⟩
  | some d =>
    by_cases hde : d = ""
    · simp only [handleChunkedMessage, hdat, if_pos hde]
      exact ⟨hinv, by simp⟩
    · have hne_idx : c.index ≠ i0 := by
        intro hx
        rcases hemp hx with h2 | h2
        · rw [hdat] at h2; exact Option.noConfusion h2
        · rw [hdat] at h2; exact hde (Option.some.inj h2)
      simp only [handleChunkedMessage, hdat, if_neg hde, hid]
      cases hm : lookupBuf m (chunkKey r mid) with
      | none =>
        simp only [lookupBuf_setBuf_self]
        rw [jsGet_replicate]
        simp only [Option.isSome_none, Bool.false_eq_true, if_false]
        have hfill : ¬ 0 + 1 = c.total := by rw [htot]; omega
        rw [if_neg hfill, setBuf_setBuf]
        have hrl : c.index < (List.replicate c.total (none : Option String)).length := by
          rw [List.length_replicate, htot]
          exact hidx
        have hsetr : jsSet (List.replicate c.total none) c.index d =
            (List.replicate c.total none).set c.index (some d) := by
          rw [jsSet, if_pos hrl]
        refine ⟨?_, rfl⟩
        intro b hb
        rw [lookupBuf_setBuf_self] at hb
        obtain rfl := Option.some.inj hb.symm
        refine ⟨htot, ?_, ?_, ?_⟩
        · rw [hsetr, List.length_set, List.length_replicate, htot]
        · rw [hsetr, jsGet_set_ne _ _ _ _ hne_idx, jsGet_replicate]
        · rw [hsetr, countSome_set _ _ _ hrl
            (by rw [List.getElem?_replicate, if_pos (htot ▸ hidx)]),
            countSome_replicate]
      | some b =>
        obtain ⟨hbt, hbl, hbg, hbc⟩ := hinv b hm
        simp only [hm]
        by_cases hdup : (jsGet b.chunks c.index).isSome
        · simp only [hdup, if_true]
          exact ⟨hinv, by simp⟩
        · simp only [hdup, Bool.false_eq_true, if_false]
          have hgn : jsGet b.chunks c.index = none :=
            Option.not_isSome_iff_eq_none.mp hdup
          have hixl : c.index < b.chunks.length := by
            rw [hbl]
            exact hidx
          have hsn : b.chunks[c.index]? = some none :=
            getElem?_of_jsGet_none _ _ hixl hgn
          have hset : jsSet b.chunks c.index d =
              b.chunks.set c.index (some d) := by
            rw [jsSet, if_pos hixl]
          have hcnt : countSome (b.chunks.set c.index (some d)) =
              countSome b.chunks + 1 := countSome_set _ _ _ hixl hsn
          have hstill : jsGet (b.chunks.set c.index (some d)) i0 = none := by
            rw [jsGet_set_ne _ _ _ _ hne_idx]
            exact hbg
          have hi0l : i0 < (b.chunks.set c.index (some d)).length := by
            rw [List.length_set, hbl]
            exact hi0
          have hlt3 : countSome (b.chunks.set c.index (some d)) < n := by
            have hx := countSome_lt _ i0 (getElem?_of_jsGet_none _ _ hi0l hstill)
            rwa [List.length_set, hbl] at hx
          have hfill : ¬ b.receivedCount + 1 = b.total := by
            rw [hbc, hbt]
            omega
          rw [hset, if_neg hfill]
          refine ⟨?_, rfl⟩
          intro b2 hb2
          rw [lookupBuf_setBuf_self] at hb2
          obtain rfl := Option.some.inj hb2.symm
          refine ⟨hbt, ?_, hstill, ?_⟩
          · rw [List.length_set]
            exact hbl
          · rw [hcnt, hbc]

theorem deliver_c10 (r : Nat) (mid : String) (n i0 : Nat) (hi0 : i0 < n) :
    ∀ (cs : List Chunk) (m : BufMap),
    (∀ c ∈ cs, c.id = mid ∧ c.total = n ∧ c.index < n ∧
      (c.index = i0 → c.data = none ∨ c.data = some "")) →
    (∀ b, lookupBuf m (chunkKey r mid) = some b → c10Inv n i0 b) →
    (deliverAll r cs m).2 = [] := by
  intro cs
  induction cs with
  | nil => intro m _ _; rfl
  | cons c cs ih =>
    intro m hcs hinv
    obtain ⟨hid, htot, hidx, hemp⟩ := hcs c (by simp)
    obtain ⟨hinv2, hout⟩ :=
      handle_c10_step r mid n i0 c m hi0 hid htot hidx hemp hinv
    rw [deliverAll_cons]
    dsimp only
    rw [hout,
      ih (handleChunkedMessage r c m).1 (fun x hx => hcs x (by simp [hx])) hinv2]
    rfl

/-- C10: a chunk envelope whose data field is absent or empty leaves the
reassembly state entirely unchanged and emits nothing; consequently a
multi-fragment message one of whose fragment indices only ever arrives
with an absent/empty payload can never complete, no matter what sequence
of its fragments (duplicates included) is delivered. -/
theorem empty_fragment_no_effect (r : Nat) (c : Chunk) (m : BufMap)
    (mid : String) (n i0 : Nat) (cs : List Chunk)
    (hc : c.data = none ∨ c.data = some "")
    (hi0 : i0 < n)
    (hcs : ∀ x ∈ cs, x.id = mid ∧ x.total = n ∧ x.index < n ∧
      (x.index = i0 → x.data = none ∨ x.data = some ""))
    (hfresh : lookupBuf m (chunkKey r mid) = none) :
    handleChunkedMessage r c m = (m, none) ∧
    (deliverAll r cs m).2 = [] := by
  constructor
  · rcases hc with h | h <;> simp [handleChunkedMessage, h]
  · exact deliver_c10 r mid n i0 hi0 cs m hcs
      (fun b hb => Option.noConfusion (hfresh ▸ hb))

/-- C10 witness: an empty-payload chunk is a no-op, and a 2-fragment
message whose fragment 0 only arrives empty never completes even after
fragment 1 arrives (twice). -/
theorem empty_fragment_no_effect_witness :
    handleChunkedMessage 1 ⟨"x", 0, 2, some ""⟩ [] = ([], none) ∧
    (deliverAll 1 [⟨"x", 0, 2, none⟩, ⟨"x", 1, 2, some "b"⟩,
      ⟨"x", 1, 2, some "b"⟩] []).2 = [] :=
  empty_fragment_no_effect 1 ⟨"x", 0, 2, some ""⟩ [] "x" 2 0
    [⟨"x", 0, 2, none⟩, ⟨"x", 1, 2, some "b"⟩, ⟨"x", 1, 2, some "b"⟩]
    (Or.inr rfl) (by omega) (by decide) (by rfl)


end MiniPupper
